import Mathlib

/-!
# Verification of the cipher core of `src/js/script.js`

Shallow embedding of the cipher core of the repository: the arithmetic helper
`mod` (script.js:244-246), the shift cipher `Caesar` (script.js:164-193) and
the running-key cipher `Vigenere` (script.js:195-242).

Modelling conventions, chosen to reproduce JavaScript semantics exactly:

* Strings are `List Char`.  JavaScript iterates strings by UTF-16 code unit;
  every symbol appearing in the repository (Latin and Cyrillic letters, space,
  punctuation) is a single code unit, so the two notions of position agree.
* JavaScript `%` on integers is the *truncated* remainder (the sign follows
  the dividend); it is embedded as `jsRem`.  Lean's own `%` on `Int` is the
  Euclidean remainder, which differs on negative dividends.
* An out-of-range string index (`s[i]` with `i < 0` or `i ≥ s.length`) yields
  `undefined` in JavaScript; this is embedded as `Option Char` with `none`
  standing for `undefined`.  The two coercions the source then applies are
  embedded separately: `str += undefined` appends the 9-character text
  "undefined" (`strConcatVal`), while `Array.prototype.join` renders an
  `undefined` element as the empty string (`joinVal`).
-/

/-- JavaScript's `%` on integer operands: truncated remainder, sign follows
the dividend.  (For a zero modulus JavaScript yields `NaN`; no call in the
repository reaches a zero modulus, because `Caesar.shiftChar` and
`Vigenere.shiftChar` return before calling `mod` whenever the alphabet is
empty, and `generateFullKey` with an empty key is embedded directly in
`Vigenere.generateFullKey`.) -/
def jsRem (a b : Int) : Int :=
  if 0 ≤ a then a % (b.natAbs : Int) else -((-a) % (b.natAbs : Int))

/-- `function mod(k, n) { return (k + n) % n; }` (script.js:244-246). -/
def mod (k n : Int) : Int := jsRem (k + n) n

/-- JavaScript `String.prototype.indexOf` for a one-character needle: the
first index at which `c` occurs in `s`, or `-1` when it does not occur. -/
def jsIndexOf : List Char → Char → Int
  | [], _ => -1
  | x :: rest, c =>
    if x = c then 0
    else if jsIndexOf rest c = -1 then -1 else jsIndexOf rest c + 1

/-- JavaScript string indexing `s[i]`: the character when `0 ≤ i < s.length`,
`undefined` (here `none`) otherwise. -/
def jsStringIndex (s : List Char) (i : Int) : Option Char :=
  if h : 0 ≤ i ∧ i < (s.length : Int) then
    some (s.get ⟨i.toNat, by omega⟩)
  else
    none

/-- JavaScript `str += v` for `v` a character-or-`undefined` value: appending
`undefined` to a string appends the text "undefined". -/
def strConcatVal : Option Char → List Char
  | some c => [c]
  | none => "undefined".toList

/-- JavaScript `Array.prototype.join("")` rendering of a
character-or-`undefined` element: `undefined` becomes the empty string. -/
def joinVal : Option Char → List Char
  | some c => [c]
  | none => []

/-- `DEFAULT_ALPHABET` (script.js:162): the 32 lowercase Ukrainian Cyrillic
letters. -/
def DEFAULT_ALPHABET : List Char := "абвгдеєжзиіїйклмнопрстуфхцчшщьюя".toList

namespace Caesar

/-- `Caesar.shiftChar` (script.js:181-188): look the character up in the
alphabet; pass it through unchanged when absent, otherwise emit
`this.alphabet[mod(Pi + shift, this.alphabet.length)]`.  The result is `none`
exactly when that index is negative (which `mod` can produce), i.e. when the
JavaScript expression is `undefined`. -/
def shiftChar (alphabet : List Char) (char : Char) (shift : Int) : Option Char :=
  if jsIndexOf alphabet char = -1 then some char
  else jsStringIndex alphabet (mod (jsIndexOf alphabet char + shift) (alphabet.length : Int))

/-- `Caesar.encrypt` (script.js:171-179): the for-loop
`ciphertext += this.shiftChar(plaintext[i], shift)`. -/
def encrypt (alphabet : List Char) (plaintext : List Char) (shift : Int) : List Char :=
  match plaintext with
  | [] => []
  | c :: rest => strConcatVal (shiftChar alphabet c shift) ++ encrypt alphabet rest shift

/-- `Caesar.decrypt` (script.js:190-192): `this.encrypt(ciphertext, -shift)`. -/
def decrypt (alphabet : List Char) (ciphertext : List Char) (shift : Int) : List Char :=
  encrypt alphabet ciphertext (-shift)

end Caesar

namespace Vigenere

/-- `Vigenere.generateFullKey` (script.js:206-212): the loop
`fullKey += this.key[i % this.key.length]`.  With a non-empty key,
`key[i % key.length]` is a character.  With an empty key, JavaScript computes
`i % 0 = NaN` and `key[NaN] = undefined`, so each iteration appends the text
"undefined"; the embedding reaches the same `undefined` because
`jsStringIndex [] _ = none`. -/
def generateFullKey (key text : List Char) : List Char :=
  ((List.range text.length).map (fun i =>
    strConcatVal (jsStringIndex key ((i % key.length : Nat) : Int)))).flatten

/-- `Vigenere.shiftChar` (script.js:214-225): pass the character through when
either lookup fails, otherwise emit
`this.alphabet[mod(charIndex + direction * keyIndex, this.alphabet.length)]`.
`direction` is `1` (`Direction.ENCRYPT`) or `-1` (`Direction.DECRYPT`). -/
def shiftChar (alphabet : List Char) (char keyChar : Char) (direction : Int) : Option Char :=
  if jsIndexOf alphabet char = -1 ∨ jsIndexOf alphabet keyChar = -1 then some char
  else jsStringIndex alphabet
    (mod (jsIndexOf alphabet char + direction * jsIndexOf alphabet keyChar)
      (alphabet.length : Int))

/-- The `.split('').map((char, i) => this.shiftChar(char, fullKey[i], d)).join('')`
pattern shared by `encrypt` and `decrypt` (script.js:227-241): pair `text[i]`
with `fullKey[i]` position by position; `join('')` renders an `undefined`
result as the empty string.  The truncating middle pattern is unreachable in
the source's uses because the full key is never shorter than the text
(`Vigenere.length_le_generateFullKey`). -/
def mapJoin (alphabet : List Char) (direction : Int) : List Char → List Char → List Char
  | [], _ => []
  | _ :: _, [] => []
  | c :: rest, k :: krest =>
    joinVal (shiftChar alphabet c k direction) ++ mapJoin alphabet direction rest krest

/-- `Vigenere.encrypt` (script.js:227-233). -/
def encrypt (alphabet key plaintext : List Char) : List Char :=
  mapJoin alphabet 1 plaintext (generateFullKey key plaintext)

/-- `Vigenere.decrypt` (script.js:235-241): same structure with
`Direction.DECRYPT = -1`, the full key regenerated from the ciphertext. -/
def decrypt (alphabet key ciphertext : List Char) : List Char :=
  mapJoin alphabet (-1) ciphertext (generateFullKey key ciphertext)

/-- The running-key default alphabet (script.js:203): `DEFAULT_ALPHABET + " "`. -/
def defaultAlphabet : List Char := DEFAULT_ALPHABET ++ [' ']

end Vigenere

/-! ## Arithmetic facts about `jsRem` and `mod` -/

theorem jsRem_of_nonneg (a b : Int) (ha : 0 ≤ a) (hb : 0 < b) : jsRem a b = a % b := by
  unfold jsRem
  rw [if_pos ha, Int.natAbs_of_nonneg hb.le]

/-- As long as its argument stays at or above `-n`, the source's
`(k + n) % n` agrees with the mathematical non-negative residue. -/
theorem mod_eq_emod (k n : Int) (hn : 0 < n) (hk : -n ≤ k) : mod k n = k % n := by
  unfold mod
  rw [jsRem_of_nonneg _ _ (by omega) hn]
  have h1 : k + n = k + n * 1 := by ring
  rw [h1, Int.add_mul_emod_self_left k n 1]

theorem mod_bounds (k n : Int) (hn : 0 < n) (hk : -n ≤ k) :
    0 ≤ mod k n ∧ mod k n < n := by
  rw [mod_eq_emod k n hn hk]
  exact ⟨Int.emod_nonneg k (by omega), Int.emod_lt_of_pos k hn⟩

/-- Undoing a shift after a reduced shift: the index arithmetic underlying
both round-trip proofs. -/
theorem emod_sub_cancel (ci s n : Int) (h0 : 0 ≤ ci) (h1 : ci < n) :
    ((ci + s) % n - s) % n = ci := by
  have e1 : ((ci + s) % n - s) % n = ((ci + s) % n % n - s % n) % n :=
    Int.sub_emod _ _ _
  have e2 : (ci + s - s) % n = ((ci + s) % n - s % n) % n := Int.sub_emod _ _ _
  rw [Int.emod_emod_of_dvd _ dvd_rfl] at e1
  have e3 : ci + s - s = ci := by ring
  rw [e3] at e2
  rw [e1, ← e2, Int.emod_eq_of_lt h0 h1]

/-! ## Facts about `jsIndexOf` -/

theorem jsIndexOf_nonneg_or (s : List Char) (c : Char) :
    jsIndexOf s c = -1 ∨ 0 ≤ jsIndexOf s c := by
  induction s with
  | nil => left; rfl
  | cons x rest ih =>
    by_cases hx : x = c
    · right; simp [jsIndexOf, hx]
    · by_cases hr : jsIndexOf rest c = -1
      · left; simp [jsIndexOf, hx, hr]
      · right
        rcases ih with h | h
        · exact absurd h hr
        · simp only [jsIndexOf, if_neg hx, if_neg hr]
          omega

theorem jsIndexOf_eq_neg_one (s : List Char) (c : Char) :
    jsIndexOf s c = -1 ↔ c ∉ s := by
  induction s with
  | nil => simp [jsIndexOf]
  | cons x rest ih =>
    by_cases hx : x = c
    · subst hx; simp [jsIndexOf]
    · by_cases hr : jsIndexOf rest c = -1
      · simp only [jsIndexOf, if_neg hx, if_pos hr, List.mem_cons, not_or]
        exact ⟨fun _ => ⟨fun h => hx h.symm, ih.mp hr⟩, fun _ => trivial⟩
      · have h0 : 0 ≤ jsIndexOf rest c := (jsIndexOf_nonneg_or rest c).resolve_left hr
        simp only [jsIndexOf, if_neg hx, if_neg hr, List.mem_cons, not_or]
        constructor
        · intro h; omega
        · rintro ⟨-, hcr⟩
          exact absurd (ih.mpr hcr) hr

theorem jsIndexOf_nonneg_of_mem {s : List Char} {c : Char} (h : c ∈ s) :
    0 ≤ jsIndexOf s c := by
  rcases jsIndexOf_nonneg_or s c with h1 | h1
  · exact absurd h ((jsIndexOf_eq_neg_one s c).mp h1)
  · exact h1

theorem jsIndexOf_ne_neg_one_of_mem {s : List Char} {c : Char} (h : c ∈ s) :
    jsIndexOf s c ≠ -1 :=
  fun he => ((jsIndexOf_eq_neg_one s c).mp he) h

theorem jsIndexOf_lt_length (s : List Char) (c : Char) :
    jsIndexOf s c < (s.length : Int) := by
  induction s with
  | nil => simp [jsIndexOf]
  | cons x rest ih =>
    by_cases hx : x = c
    · simp only [jsIndexOf, if_pos hx, List.length_cons]
      push_cast
      omega
    · by_cases hr : jsIndexOf rest c = -1
      · simp only [jsIndexOf, if_neg hx, if_pos hr, List.length_cons]
        push_cast
        omega
      · simp only [jsIndexOf, if_neg hx, if_neg hr, List.length_cons]
        push_cast
        omega

/-- The alphabet symbol at the first index of `c` is `c` itself. -/
theorem jsIndexOf_getElem? {s : List Char} {c : Char} (h : c ∈ s) :
    s[(jsIndexOf s c).toNat]? = some c := by
  induction s with
  | nil => cases h
  | cons x rest ih =>
    by_cases hx : x = c
    · simp [jsIndexOf, hx]
    · have hcr : c ∈ rest := by
        rcases List.mem_cons.mp h with h1 | h1
        · exact absurd h1.symm hx
        · exact h1
      have hr : jsIndexOf rest c ≠ -1 := jsIndexOf_ne_neg_one_of_mem hcr
      have h0 : 0 ≤ jsIndexOf rest c := jsIndexOf_nonneg_of_mem hcr
      simp only [jsIndexOf, if_neg hx, if_neg hr]
      have ht : (jsIndexOf rest c + 1).toNat = (jsIndexOf rest c).toNat + 1 := by omega
      rw [ht, List.getElem?_cons_succ]
      exact ih hcr

/-- On a duplicate-free alphabet, looking up the symbol stored at index `j`
returns `j`: the position map is injective. -/
theorem jsIndexOf_of_getElem? {s : List Char} (hnd : s.Nodup) {j : Nat} {c : Char}
    (h : s[j]? = some c) : jsIndexOf s c = (j : Int) := by
  induction s generalizing j with
  | nil => simp at h
  | cons x rest ih =>
    rcases List.nodup_cons.mp hnd with ⟨hx, hrest⟩
    cases j with
    | zero =>
      rw [List.getElem?_cons_zero] at h
      obtain rfl : x = c := by injection h
      simp [jsIndexOf]
    | succ j' =>
      rw [List.getElem?_cons_succ] at h
      have hcr : c ∈ rest := by
        have hj : j' < rest.length := by
          by_contra hjn
          rw [List.getElem?_eq_none (by omega)] at h
          cases h
        rw [List.getElem?_eq_getElem hj] at h
        obtain rfl : rest[j'] = c := by injection h
        exact List.getElem_mem hj
      have hxc : ¬ x = c := fun he => hx (he ▸ hcr)
      have hr : jsIndexOf rest c ≠ -1 := jsIndexOf_ne_neg_one_of_mem hcr
      simp only [jsIndexOf, if_neg hxc, if_neg hr]
      rw [ih hrest h]
      push_cast
      ring

/-! ## Facts about `jsStringIndex` and flattening -/

theorem jsStringIndex_eq_getElem? (s : List Char) (i : Int) (h0 : 0 ≤ i) :
    jsStringIndex s i = s[i.toNat]? := by
  unfold jsStringIndex
  split
  · next h => exact (List.getElem?_eq_getElem (by omega)).symm
  · next h => exact (List.getElem?_eq_none (by omega)).symm

theorem flatten_length_of_singletons (l : List (List Char))
    (h : ∀ x ∈ l, x.length = 1) : l.flatten.length = l.length := by
  induction l with
  | nil => rfl
  | cons x rest ih =>
    have hx := h x (List.mem_cons_self x rest)
    rw [List.flatten_cons, List.length_append, hx,
      ih (fun y hy => h y (List.mem_cons_of_mem x hy)), List.length_cons]
    omega

theorem length_le_flatten (l : List (List Char)) (h : ∀ x ∈ l, 1 ≤ x.length) :
    l.length ≤ l.flatten.length := by
  induction l with
  | nil => exact le_refl 0
  | cons x rest ih =>
    have hx := h x (List.mem_cons_self x rest)
    rw [List.flatten_cons, List.length_append, List.length_cons]
    have := ih (fun y hy => h y (List.mem_cons_of_mem x hy))
    omega

theorem strConcatVal_some (c : Char) : strConcatVal (some c) = [c] := rfl

theorem strConcatVal_none : strConcatVal none = "undefined".toList := rfl

theorem joinVal_some (c : Char) : joinVal (some c) = [c] := rfl

theorem flatten_getElem?_of_singletons (l : List (List Char))
    (h : ∀ x ∈ l, x.length = 1) (j : Nat) :
    l.flatten[j]? = l[j]?.bind (fun x => x[0]?) := by
  induction l generalizing j with
  | nil => simp
  | cons x rest ih =>
    obtain ⟨a, rfl⟩ := List.length_eq_one.mp (h _ (List.mem_cons_self x rest))
    cases j with
    | zero => simp
    | succ j' =>
      simp only [List.flatten_cons, List.singleton_append, List.getElem?_cons_succ]
      exact ih (fun y hy => h y (List.mem_cons_of_mem _ hy)) j'

/-! ## Facts about the shift cipher -/

namespace Caesar

theorem shiftChar_of_not_mem (alphabet : List Char) {c : Char} (h : c ∉ alphabet)
    (s : Int) : shiftChar alphabet c s = some c := by
  unfold shiftChar
  rw [if_pos ((jsIndexOf_eq_neg_one alphabet c).mpr h)]

/-- For an in-alphabet character and a shift at or above `-alphabet.length`,
`shiftChar` lands on the alphabet symbol at the reduced index. -/
theorem shiftChar_of_mem (alphabet : List Char) {c : Char} (hc : c ∈ alphabet)
    (s : Int) (hs : -(alphabet.length : Int) ≤ s) :
    shiftChar alphabet c s =
      alphabet[((jsIndexOf alphabet c + s) % (alphabet.length : Int)).toNat]? := by
  unfold shiftChar
  rw [if_neg (jsIndexOf_ne_neg_one_of_mem hc)]
  have hn : (0 : Int) < alphabet.length := by exact_mod_cast List.length_pos_of_mem hc
  have h0 : 0 ≤ jsIndexOf alphabet c := jsIndexOf_nonneg_of_mem hc
  rw [mod_eq_emod _ _ hn (by omega)]
  exact jsStringIndex_eq_getElem? _ _ (Int.emod_nonneg _ (by omega))

theorem shiftChar_isSome (alphabet : List Char) (c : Char) (s : Int)
    (hs : -(alphabet.length : Int) ≤ s) :
    ∃ c', shiftChar alphabet c s = some c' := by
  by_cases hc : c ∈ alphabet
  · have hn : (0 : Int) < alphabet.length := by exact_mod_cast List.length_pos_of_mem hc
    have h0 : 0 ≤ jsIndexOf alphabet c := jsIndexOf_nonneg_of_mem hc
    have hj0 : 0 ≤ (jsIndexOf alphabet c + s) % (alphabet.length : Int) :=
      Int.emod_nonneg _ (by omega)
    have hjn : (jsIndexOf alphabet c + s) % (alphabet.length : Int) <
        (alphabet.length : Int) := Int.emod_lt_of_pos _ hn
    rw [shiftChar_of_mem alphabet hc s hs]
    exact ⟨_, List.getElem?_eq_getElem (by omega)⟩
  · exact ⟨c, shiftChar_of_not_mem alphabet hc s⟩

/-- One character, there and back: shifting by `s` and then by `-s` restores
the character, for shifts of magnitude at most the alphabet length over a
duplicate-free alphabet. -/
theorem shiftChar_roundtrip (alphabet : List Char) (hnd : alphabet.Nodup)
    {c : Char} (hc : c ∈ alphabet) (s : Int)
    (hs1 : -(alphabet.length : Int) ≤ s) (hs2 : s ≤ (alphabet.length : Int)) :
    ∃ c', shiftChar alphabet c s = some c' ∧ shiftChar alphabet c' (-s) = some c := by
  have hn : (0 : Int) < alphabet.length := by exact_mod_cast List.length_pos_of_mem hc
  have h0 : 0 ≤ jsIndexOf alphabet c := jsIndexOf_nonneg_of_mem hc
  have hltn : jsIndexOf alphabet c < (alphabet.length : Int) := jsIndexOf_lt_length _ _
  have hj0 : 0 ≤ (jsIndexOf alphabet c + s) % (alphabet.length : Int) :=
    Int.emod_nonneg _ (by omega)
  have hjn : (jsIndexOf alphabet c + s) % (alphabet.length : Int) <
      (alphabet.length : Int) := Int.emod_lt_of_pos _ hn
  have hjlt : ((jsIndexOf alphabet c + s) % (alphabet.length : Int)).toNat <
      alphabet.length := by omega
  refine ⟨alphabet[((jsIndexOf alphabet c + s) % (alphabet.length : Int)).toNat], ?_, ?_⟩
  · rw [shiftChar_of_mem alphabet hc s hs1]
    exact List.getElem?_eq_getElem hjlt
  · have hmem : alphabet[((jsIndexOf alphabet c + s) %
        (alphabet.length : Int)).toNat] ∈ alphabet := List.getElem_mem hjlt
    rw [shiftChar_of_mem alphabet hmem (-s) (by omega)]
    have hidx : jsIndexOf alphabet
        (alphabet[((jsIndexOf alphabet c + s) % (alphabet.length : Int)).toNat]) =
        ((((jsIndexOf alphabet c + s) % (alphabet.length : Int)).toNat : Nat) : Int) :=
      jsIndexOf_of_getElem? hnd (List.getElem?_eq_getElem hjlt)
    rw [hidx]
    have harith : ((((jsIndexOf alphabet c + s) %
        (alphabet.length : Int)).toNat : Int) + -s) % (alphabet.length : Int) =
        jsIndexOf alphabet c := by
      have h1 : ((((jsIndexOf alphabet c + s) %
          (alphabet.length : Int)).toNat : Int)) =
          (jsIndexOf alphabet c + s) % (alphabet.length : Int) := by omega
      rw [h1]
      have h2 : (jsIndexOf alphabet c + s) % (alphabet.length : Int) + -s =
          (jsIndexOf alphabet c + s) % (alphabet.length : Int) - s := by ring
      rw [h2]
      exact emod_sub_cancel _ s _ h0 hltn
    rw [harith]
    exact jsIndexOf_getElem? hc

theorem encrypt_length (alphabet : List Char) (text : List Char) (s : Int)
    (hs : -(alphabet.length : Int) ≤ s) :
    (encrypt alphabet text s).length = text.length := by
  induction text with
  | nil => rfl
  | cons c rest ih =>
    obtain ⟨c', hc'⟩ := shiftChar_isSome alphabet c s hs
    simp only [encrypt, hc', strConcatVal_some, List.singleton_append, List.length_cons,
      ih]

theorem encrypt_getElem?_of_not_mem (alphabet : List Char) (s : Int)
    (hs : -(alphabet.length : Int) ≤ s) (text : List Char) :
    ∀ (i : Nat) (c : Char), text[i]? = some c → c ∉ alphabet →
      (encrypt alphabet text s)[i]? = some c := by
  induction text with
  | nil => intro i c h _; simp at h
  | cons x rest ih =>
    intro i c h hc
    cases i with
    | zero =>
      rw [List.getElem?_cons_zero] at h
      obtain rfl : x = c := by injection h
      simp only [encrypt, shiftChar_of_not_mem alphabet hc s, strConcatVal_some,
        List.singleton_append, List.getElem?_cons_zero]
    | succ i' =>
      rw [List.getElem?_cons_succ] at h
      obtain ⟨c', hc'⟩ := shiftChar_isSome alphabet x s hs
      simp only [encrypt, hc', strConcatVal_some, List.singleton_append,
        List.getElem?_cons_succ]
      exact ih i' c h hc

/-- Round trip at the level of whole texts made of alphabet symbols. -/
theorem encrypt_encrypt_neg (alphabet : List Char) (hnd : alphabet.Nodup) (s : Int)
    (hs1 : -(alphabet.length : Int) ≤ s) (hs2 : s ≤ (alphabet.length : Int))
    (text : List Char) (hmem : ∀ c ∈ text, c ∈ alphabet) :
    encrypt alphabet (encrypt alphabet text s) (-s) = text := by
  induction text with
  | nil => rfl
  | cons c rest ih =>
    obtain ⟨c', h1, h2⟩ :=
      shiftChar_roundtrip alphabet hnd (hmem c (List.mem_cons_self c rest)) s hs1 hs2
    simp only [encrypt, h1, strConcatVal_some, List.singleton_append]
    simp only [encrypt, h2, strConcatVal_some, List.singleton_append]
    rw [ih (fun d hd => hmem d (List.mem_cons_of_mem c hd))]

end Caesar

/-! ## Facts about the running-key cipher -/

namespace Vigenere

theorem shiftChar_of_not_mem_left (alphabet : List Char) {c : Char}
    (h : c ∉ alphabet) (k : Char) (d : Int) : shiftChar alphabet c k d = some c := by
  unfold shiftChar
  rw [if_pos (Or.inl ((jsIndexOf_eq_neg_one alphabet c).mpr h))]

/-- With both characters in the alphabet and `direction` equal to `±1`, the
reduced index is never negative: the running-key cipher never hits the
negative branch of `mod`. -/
theorem shiftChar_mem_eq (alphabet : List Char) {c k : Char} (hc : c ∈ alphabet)
    (hk : k ∈ alphabet) {d : Int} (hd : d = 1 ∨ d = -1) :
    shiftChar alphabet c k d =
      alphabet[((jsIndexOf alphabet c + d * jsIndexOf alphabet k) %
        (alphabet.length : Int)).toNat]? := by
  unfold shiftChar
  rw [if_neg (by
    push_neg
    exact ⟨jsIndexOf_ne_neg_one_of_mem hc, jsIndexOf_ne_neg_one_of_mem hk⟩)]
  have hn : (0 : Int) < alphabet.length := by exact_mod_cast List.length_pos_of_mem hc
  have hc0 : 0 ≤ jsIndexOf alphabet c := jsIndexOf_nonneg_of_mem hc
  have hk0 : 0 ≤ jsIndexOf alphabet k := jsIndexOf_nonneg_of_mem hk
  have hkn : jsIndexOf alphabet k < (alphabet.length : Int) := jsIndexOf_lt_length _ _
  have hbound : -(alphabet.length : Int) ≤
      jsIndexOf alphabet c + d * jsIndexOf alphabet k := by
    rcases hd with rfl | rfl <;> omega
  rw [mod_eq_emod _ _ hn hbound]
  exact jsStringIndex_eq_getElem? _ _ (Int.emod_nonneg _ (by omega))

theorem shiftChar_total (alphabet : List Char) (c k : Char) {d : Int}
    (hd : d = 1 ∨ d = -1) : ∃ c', shiftChar alphabet c k d = some c' := by
  by_cases hck : jsIndexOf alphabet c = -1 ∨ jsIndexOf alphabet k = -1
  · exact ⟨c, by unfold shiftChar; rw [if_pos hck]⟩
  · push_neg at hck
    have hc : c ∈ alphabet := by
      by_contra h
      exact hck.1 ((jsIndexOf_eq_neg_one alphabet c).mpr h)
    have hk : k ∈ alphabet := by
      by_contra h
      exact hck.2 ((jsIndexOf_eq_neg_one alphabet k).mpr h)
    have hn : (0 : Int) < alphabet.length := by exact_mod_cast List.length_pos_of_mem hc
    have hj0 : 0 ≤ (jsIndexOf alphabet c + d * jsIndexOf alphabet k) %
        (alphabet.length : Int) := Int.emod_nonneg _ (by omega)
    have hjn : (jsIndexOf alphabet c + d * jsIndexOf alphabet k) %
        (alphabet.length : Int) < (alphabet.length : Int) := Int.emod_lt_of_pos _ hn
    rw [shiftChar_mem_eq alphabet hc hk hd]
    exact ⟨_, List.getElem?_eq_getElem (by omega)⟩

/-- One position, there and back: encrypting with a key character from the
alphabet and decrypting with the same key character restores the original
character, whether or not that character is in the alphabet. -/
theorem shiftChar_inverse (alphabet : List Char) (hnd : alphabet.Nodup)
    {k : Char} (hk : k ∈ alphabet) (c : Char) :
    ∃ c', shiftChar alphabet c k 1 = some c' ∧ shiftChar alphabet c' k (-1) = some c := by
  by_cases hc : c ∈ alphabet
  · have hn : (0 : Int) < alphabet.length := by exact_mod_cast List.length_pos_of_mem hc
    have hc0 : 0 ≤ jsIndexOf alphabet c := jsIndexOf_nonneg_of_mem hc
    have hcn : jsIndexOf alphabet c < (alphabet.length : Int) := jsIndexOf_lt_length _ _
    have hk0 : 0 ≤ jsIndexOf alphabet k := jsIndexOf_nonneg_of_mem hk
    have hkn : jsIndexOf alphabet k < (alphabet.length : Int) := jsIndexOf_lt_length _ _
    have hj0 : 0 ≤ (jsIndexOf alphabet c + 1 * jsIndexOf alphabet k) %
        (alphabet.length : Int) := Int.emod_nonneg _ (by omega)
    have hjn : (jsIndexOf alphabet c + 1 * jsIndexOf alphabet k) %
        (alphabet.length : Int) < (alphabet.length : Int) := Int.emod_lt_of_pos _ hn
    have hjlt : ((jsIndexOf alphabet c + 1 * jsIndexOf alphabet k) %
        (alphabet.length : Int)).toNat < alphabet.length := by omega
    refine ⟨alphabet[((jsIndexOf alphabet c + 1 * jsIndexOf alphabet k) %
      (alphabet.length : Int)).toNat], ?_, ?_⟩
    · rw [shiftChar_mem_eq alphabet hc hk (Or.inl rfl)]
      exact List.getElem?_eq_getElem hjlt
    · have hmem : alphabet[((jsIndexOf alphabet c + 1 * jsIndexOf alphabet k) %
          (alphabet.length : Int)).toNat] ∈ alphabet := List.getElem_mem hjlt
      rw [shiftChar_mem_eq alphabet hmem hk (Or.inr rfl)]
      have hidx : jsIndexOf alphabet
          (alphabet[((jsIndexOf alphabet c + 1 * jsIndexOf alphabet k) %
            (alphabet.length : Int)).toNat]) =
          ((((jsIndexOf alphabet c + 1 * jsIndexOf alphabet k) %
            (alphabet.length : Int)).toNat : Nat) : Int) :=
        jsIndexOf_of_getElem? hnd (List.getElem?_eq_getElem hjlt)
      rw [hidx]
      have harith : (((((jsIndexOf alphabet c + 1 * jsIndexOf alphabet k) %
          (alphabet.length : Int)).toNat : Nat) : Int) +
            -1 * jsIndexOf alphabet k) % (alphabet.length : Int) =
          jsIndexOf alphabet c := by
        have h1 : (((((jsIndexOf alphabet c + 1 * jsIndexOf alphabet k) %
            (alphabet.length : Int)).toNat : Nat) : Int)) =
            (jsIndexOf alphabet c + 1 * jsIndexOf alphabet k) %
              (alphabet.length : Int) := by omega
        rw [h1]
        have h2 : (jsIndexOf alphabet c + 1 * jsIndexOf alphabet k) %
            (alphabet.length : Int) + -1 * jsIndexOf alphabet k =
            (jsIndexOf alphabet c + jsIndexOf alphabet k) %
              (alphabet.length : Int) - jsIndexOf alphabet k := by ring_nf
        rw [h2]
        exact emod_sub_cancel _ _ _ hc0 hcn
      rw [harith]
      exact jsIndexOf_getElem? hc
  · refine ⟨c, shiftChar_of_not_mem_left alphabet hc k 1, shiftChar_of_not_mem_left alphabet hc k (-1)⟩

theorem mapJoin_length (alphabet : List Char) {d : Int} (hd : d = 1 ∨ d = -1)
    (text : List Char) : ∀ fk : List Char, text.length ≤ fk.length →
    (mapJoin alphabet d text fk).length = text.length := by
  induction text with
  | nil => intro fk _; rfl
  | cons c rest ih =>
    intro fk hlen
    cases fk with
    | nil => exact absurd hlen (by simp)
    | cons k krest =>
      obtain ⟨c', hc'⟩ := shiftChar_total alphabet c k hd
      simp only [mapJoin, hc', joinVal_some, List.singleton_append, List.length_cons]
      rw [ih krest (by simp only [List.length_cons] at hlen; omega)]

theorem mapJoin_getElem?_of_not_mem (alphabet : List Char) {d : Int}
    (hd : d = 1 ∨ d = -1) (text : List Char) :
    ∀ (fk : List Char) (i : Nat) (c : Char), text.length ≤ fk.length →
      text[i]? = some c → c ∉ alphabet →
      (mapJoin alphabet d text fk)[i]? = some c := by
  induction text with
  | nil => intro fk i c _ h _; simp at h
  | cons x rest ih =>
    intro fk i c hlen h hc
    cases fk with
    | nil => exact absurd hlen (by simp)
    | cons k krest =>
      cases i with
      | zero =>
        rw [List.getElem?_cons_zero] at h
        obtain rfl : x = c := by injection h
        simp only [mapJoin, shiftChar_of_not_mem_left alphabet hc k d, joinVal_some,
          List.singleton_append, List.getElem?_cons_zero]
      | succ i' =>
        rw [List.getElem?_cons_succ] at h
        obtain ⟨c', hc'⟩ := shiftChar_total alphabet x k hd
        simp only [mapJoin, hc', joinVal_some, List.singleton_append,
          List.getElem?_cons_succ]
        exact ih krest i' c (by simp only [List.length_cons] at hlen; omega) h hc

/-- Applying the key stream with direction `-1` undoes applying it with
direction `+1`, provided every key-stream character is in the alphabet. -/
theorem mapJoin_roundtrip (alphabet : List Char) (hnd : alphabet.Nodup)
    (text : List Char) : ∀ fk : List Char, text.length ≤ fk.length →
      (∀ k ∈ fk, k ∈ alphabet) →
      mapJoin alphabet (-1) (mapJoin alphabet 1 text fk) fk = text := by
  induction text with
  | nil => intro fk _ _; rfl
  | cons c rest ih =>
    intro fk hlen hmem
    cases fk with
    | nil => exact absurd hlen (by simp)
    | cons k krest =>
      obtain ⟨c', h1, h2⟩ :=
        shiftChar_inverse alphabet hnd (hmem k (List.mem_cons_self k krest)) c
      simp only [mapJoin, h1, joinVal_some, List.singleton_append]
      simp only [mapJoin, h2, joinVal_some, List.singleton_append]
      rw [ih krest (by simp only [List.length_cons] at hlen; omega)
        (fun y hy => hmem y (List.mem_cons_of_mem k hy))]

theorem generateFullKey_chunks_singleton {key : List Char} (hk : key ≠ [])
    (text : List Char) :
    ∀ x ∈ (List.range text.length).map (fun i =>
      strConcatVal (jsStringIndex key ((i % key.length : Nat) : Int))), x.length = 1 := by
  intro x hx
  obtain ⟨i, hi, rfl⟩ := List.mem_map.mp hx
  have hkl : 0 < key.length := List.length_pos.mpr hk
  have hlt : i % key.length < key.length := Nat.mod_lt i hkl
  rw [jsStringIndex_eq_getElem? key _ (Int.natCast_nonneg _)]
  have ht : (((i % key.length : Nat) : Int)).toNat = i % key.length := by omega
  rw [ht, List.getElem?_eq_getElem hlt, strConcatVal_some]
  rfl

theorem generateFullKey_length {key : List Char} (hk : key ≠ [])
    (text : List Char) : (generateFullKey key text).length = text.length := by
  unfold generateFullKey
  rw [flatten_length_of_singletons _ (generateFullKey_chunks_singleton hk text),
    List.length_map, List.length_range]

/-- Whatever the key (empty included), the full key is at least as long as
the text: each loop iteration appends one character, or nine for the
`undefined` produced by an empty key. -/
theorem length_le_generateFullKey (key text : List Char) :
    text.length ≤ (generateFullKey key text).length := by
  unfold generateFullKey
  have h : ∀ x ∈ (List.range text.length).map (fun i =>
      strConcatVal (jsStringIndex key ((i % key.length : Nat) : Int))),
      1 ≤ x.length := by
    intro x hx
    obtain ⟨i, hi, rfl⟩ := List.mem_map.mp hx
    cases hjs : jsStringIndex key ((i % key.length : Nat) : Int) with
    | none =>
      rw [strConcatVal_none]
      decide
    | some c =>
      rw [strConcatVal_some]
      exact le_refl 1
  have h2 := length_le_flatten _ h
  rwa [List.length_map, List.length_range] at h2

theorem generateFullKey_mem {key : List Char} (hk : key ≠ []) (text : List Char) :
    ∀ x ∈ generateFullKey key text, x ∈ key := by
  intro x hx
  unfold generateFullKey at hx
  obtain ⟨l, hl, hxl⟩ := List.mem_flatten.mp hx
  obtain ⟨i, hi, rfl⟩ := List.mem_map.mp hl
  have hkl : 0 < key.length := List.length_pos.mpr hk
  have hlt : i % key.length < key.length := Nat.mod_lt i hkl
  rw [jsStringIndex_eq_getElem? key _ (Int.natCast_nonneg _)] at hxl
  have ht : (((i % key.length : Nat) : Int)).toNat = i % key.length := by omega
  rw [ht, List.getElem?_eq_getElem hlt, strConcatVal_some] at hxl
  obtain rfl : x = key[i % key.length] := by simpa using hxl
  exact List.getElem_mem hlt

/-- The full key depends on the text only through its length (the loop reads
`text.length` and nothing else), so regenerating it from the ciphertext
reproduces it. -/
theorem generateFullKey_congr (key : List Char) {t1 t2 : List Char}
    (h : t1.length = t2.length) : generateFullKey key t1 = generateFullKey key t2 := by
  unfold generateFullKey
  rw [h]

/-- `fullKey[i] = key[i % key.length]` for a non-empty key. -/
theorem generateFullKey_getElem? {key : List Char} (hk : key ≠ [])
    (text : List Char) {i : Nat} (hi : i < text.length) :
    (generateFullKey key text)[i]? = key[i % key.length]? := by
  unfold generateFullKey
  rw [flatten_getElem?_of_singletons _ (generateFullKey_chunks_singleton hk text) i,
    List.getElem?_map, List.getElem?_range hi]
  simp only [Option.map_some', Option.some_bind]
  have hkl : 0 < key.length := List.length_pos.mpr hk
  have hlt : i % key.length < key.length := Nat.mod_lt i hkl
  rw [jsStringIndex_eq_getElem? key _ (Int.natCast_nonneg _)]
  have ht : (((i % key.length : Nat) : Int)).toNat = i % key.length := by omega
  rw [ht, List.getElem?_eq_getElem hlt]
  simp [strConcatVal_some, List.getElem?_eq_getElem hlt]

end Vigenere

/-! ## Claims -/

/-- C1 (corrected): the shift-cipher round trip
`decrypt(encrypt(text, s), s) = text` holds for every duplicate-free alphabet,
every text composed of alphabet symbols, and every shift `s` of magnitude at
most the alphabet length.  The unrestricted claim — any shift, including
magnitudes beyond the alphabet length — fails, because `mod` can then return
a negative index and `alphabet[Ci]` becomes `undefined`
(see `caesar_roundtrip_cex`). -/
theorem caesar_roundtrip (alphabet text : List Char) (s : Int)
    (hnd : alphabet.Nodup) (htext : ∀ c ∈ text, c ∈ alphabet)
    (hs1 : -(alphabet.length : Int) ≤ s) (hs2 : s ≤ (alphabet.length : Int)) :
    Caesar.decrypt alphabet (Caesar.encrypt alphabet text s) s = text :=
  Caesar.encrypt_encrypt_neg alphabet hnd s hs1 hs2 text htext

/-- Witness for C1, at the spec's concrete scenario: alphabet a–z, shift 10,
"hello" encrypts to "rovvy" and decrypts back to "hello". -/
theorem caesar_roundtrip_witness :
    Caesar.decrypt ("abcdefghijklmnopqrstuvwxyz".toList)
      (Caesar.encrypt ("abcdefghijklmnopqrstuvwxyz".toList) ("hello".toList) 10) 10 =
      "hello".toList :=
  caesar_roundtrip _ _ _ (by decide) (by decide) (by decide) (by decide)

/-- Counterexample to C1 as stated: over the duplicate-free alphabet "ab",
with shift 4 (magnitude ≥ alphabet length 2), decrypting the encryption of
the in-alphabet text "b" yields the text "undefined", not "b". -/
theorem caesar_roundtrip_cex :
    (['a', 'b'] : List Char).Nodup ∧ 'b' ∈ (['a', 'b'] : List Char) ∧
    Caesar.decrypt ['a', 'b'] (Caesar.encrypt ['a', 'b'] ['b'] 4) 4 =
      "undefined".toList ∧
    Caesar.decrypt ['a', 'b'] (Caesar.encrypt ['a', 'b'] ['b'] 4) 4 ≠ ['b'] := by
  decide

/-- C2 (corrected): `mod k n` lies in `[0, n)` and equals the non-negative
residue `k % n` (Euclidean remainder) for every positive `n` and every
`k ≥ -n`.  The unrestricted claim — every integer `k` — is false:
`(k + n) % n` with a single truncating remainder goes negative for `k < -n`
(see `mod_contract_cex`). -/
theorem mod_contract (k n : Int) (hn : 0 < n) (hk : -n ≤ k) :
    0 ≤ mod k n ∧ mod k n < n ∧ mod k n = k % n := by
  obtain ⟨h1, h2⟩ := mod_bounds k n hn hk
  exact ⟨h1, h2, mod_eq_emod k n hn hk⟩

/-- Witness for C2, covering the spec's boundary cases
`mod(-1,26) = 25`, `mod(26,26) = 0`, `mod(0,1) = 0`. -/
theorem mod_contract_witness :
    (0 ≤ mod (-1) 26 ∧ mod (-1) 26 < 26 ∧ mod (-1) 26 = (-1 : Int) % 26) ∧
    mod (-1) 26 = 25 ∧ mod 26 26 = 0 ∧ mod 0 1 = 0 :=
  ⟨mod_contract (-1) 26 (by decide) (by decide), by decide, by decide, by decide⟩

/-- Counterexample to C2 as stated: `mod(-27, 26) = -1`, which is negative
and differs from the non-negative residue `25`. -/
theorem mod_contract_cex :
    mod (-27) 26 = -1 ∧ (-27 : Int) % 26 = 25 ∧ ¬ 0 ≤ mod (-27) 26 := by
  decide

/-- C3 (confirmed): running-key round trip.  For a duplicate-free alphabet
and a fixed non-empty keyword all of whose symbols are in the alphabet,
`decrypt(encrypt(text)) = text` for every text — in-alphabet symbols are
shifted and unshifted by the same key-stream character (the key-stream
depends only on position and keyword, so the one regenerated from the
ciphertext coincides), and out-of-alphabet symbols pass through unchanged in
both directions. -/
theorem running_key_roundtrip (alphabet key text : List Char)
    (hnd : alphabet.Nodup) (hk : key ≠ []) (hkey : ∀ c ∈ key, c ∈ alphabet) :
    Vigenere.decrypt alphabet key (Vigenere.encrypt alphabet key text) = text := by
  have hflen : (Vigenere.generateFullKey key text).length = text.length :=
    Vigenere.generateFullKey_length hk text
  have hlen : text.length ≤ (Vigenere.generateFullKey key text).length :=
    le_of_eq hflen.symm
  have hclen : (Vigenere.mapJoin alphabet 1 text
      (Vigenere.generateFullKey key text)).length = text.length :=
    Vigenere.mapJoin_length alphabet (Or.inl rfl) text _ hlen
  unfold Vigenere.encrypt Vigenere.decrypt
  rw [Vigenere.generateFullKey_congr key hclen]
  exact Vigenere.mapJoin_roundtrip alphabet hnd text _ hlen
    (fun y hy => hkey y (Vigenere.generateFullKey_mem hk text y hy))

/-- Witness for C3, at the spec's concrete scenario: alphabet a–z plus space,
key "key", "attack at dawn" round-trips exactly. -/
theorem running_key_roundtrip_witness :
    Vigenere.decrypt ("abcdefghijklmnopqrstuvwxyz ".toList) ("key".toList)
      (Vigenere.encrypt ("abcdefghijklmnopqrstuvwxyz ".toList) ("key".toList)
        ("attack at dawn".toList)) = "attack at dawn".toList :=
  running_key_roundtrip _ _ _ (by decide) (by decide) (by decide)

/-- C4 (code bug): with an empty keyword and non-empty text, key-stream
generation raises no error at all.  JavaScript computes
`key[i % 0] = key[NaN] = undefined` and `fullKey += undefined` appends the
text "undefined" once per input symbol; `encrypt` then silently returns the
text unchanged on the default alphabet (the Latin letters of "undefined" are
not in it, so every position passes through) instead of failing fast with an
EmptyKey configuration error. -/
theorem vigenere_empty_key_behavior :
    Vigenere.generateFullKey [] ("аб".toList) = "undefinedundefined".toList ∧
    Vigenere.encrypt Vigenere.defaultAlphabet [] ("аб".toList) = "аб".toList := by
  decide

/-- C5 (corrected): length preservation holds unconditionally for the
running-key cipher (in both directions, any key, empty included), and for the
shift cipher exactly when the effective shift keeps the reduced index
non-negative: encryption for shifts `≥ -alphabet.length`, decryption for
shifts `≤ alphabet.length`.  Outside those bounds the shift cipher appends
the 9-character text "undefined" in place of one symbol
(see `length_preservation_cex`). -/
theorem length_preservation (alphabet key text : List Char) (s : Int) :
    ((-(alphabet.length : Int) ≤ s) →
      (Caesar.encrypt alphabet text s).length = text.length) ∧
    ((s ≤ (alphabet.length : Int)) →
      (Caesar.decrypt alphabet text s).length = text.length) ∧
    (Vigenere.encrypt alphabet key text).length = text.length ∧
    (Vigenere.decrypt alphabet key text).length = text.length :=
  ⟨fun hs => Caesar.encrypt_length alphabet text s hs,
    fun hs => Caesar.encrypt_length alphabet text (-s) (by omega),
    Vigenere.mapJoin_length alphabet (Or.inl rfl) text _
      (Vigenere.length_le_generateFullKey key text),
    Vigenere.mapJoin_length alphabet (Or.inr rfl) text _
      (Vigenere.length_le_generateFullKey key text)⟩

/-- Witness for C5 at a mixed in/out-of-alphabet text. -/
theorem length_preservation_witness :
    (Caesar.encrypt ['a', 'b'] ['a', '!'] 1).length = 2 ∧
    (Caesar.decrypt ['a', 'b'] ['a', '!'] 1).length = 2 ∧
    (Vigenere.encrypt ['a', 'b'] ['a'] ['a', '!']).length = 2 ∧
    (Vigenere.decrypt ['a', 'b'] ['a'] ['a', '!']).length = 2 := by
  obtain h := length_preservation ['a', 'b'] ['a'] ['a', '!'] 1
  exact ⟨h.1 (by decide), h.2.1 (by decide), h.2.2.1, h.2.2.2⟩

/-- Counterexample to C5 as stated: encrypting the one-symbol text "a" over
the alphabet "ab" with shift `-3` produces the 9-character text "undefined". -/
theorem length_preservation_cex :
    Caesar.encrypt ['a', 'b'] ['a'] (-3) = "undefined".toList ∧
    (Caesar.encrypt ['a', 'b'] ['a'] (-3)).length = 9 ∧
    (['a'] : List Char).length = 1 := by
  decide

/-- C6 (corrected): an out-of-alphabet symbol appears unchanged at the same
position in the output — unconditionally for the running-key cipher in both
directions, and for the shift cipher whenever the shift obeys the same bounds
as in C5.  For shifts below `-alphabet.length`, an earlier in-alphabet symbol
expands to the 9-character text "undefined", displacing later positions
(see `pass_through_cex`).  No input symbol ever causes an error. -/
theorem pass_through (alphabet key text : List Char) (s : Int) (i : Nat) (c : Char)
    (hget : text[i]? = some c) (hc : c ∉ alphabet) :
    ((-(alphabet.length : Int) ≤ s) →
      (Caesar.encrypt alphabet text s)[i]? = some c) ∧
    ((s ≤ (alphabet.length : Int)) →
      (Caesar.decrypt alphabet text s)[i]? = some c) ∧
    (Vigenere.encrypt alphabet key text)[i]? = some c ∧
    (Vigenere.decrypt alphabet key text)[i]? = some c :=
  ⟨fun hs => Caesar.encrypt_getElem?_of_not_mem alphabet s hs text i c hget hc,
    fun hs => Caesar.encrypt_getElem?_of_not_mem alphabet (-s) (by omega) text i c hget hc,
    Vigenere.mapJoin_getElem?_of_not_mem alphabet (Or.inl rfl) text _ i c
      (Vigenere.length_le_generateFullKey key text) hget hc,
    Vigenere.mapJoin_getElem?_of_not_mem alphabet (Or.inr rfl) text _ i c
      (Vigenere.length_le_generateFullKey key text) hget hc⟩

/-- Witness for C6: the symbol "!" is not in the alphabet "ab" and survives
all four operations at its position. -/
theorem pass_through_witness :
    (Caesar.encrypt ['a', 'b'] ['!'] 1)[0]? = some '!' ∧
    (Caesar.decrypt ['a', 'b'] ['!'] 1)[0]? = some '!' ∧
    (Vigenere.encrypt ['a', 'b'] ['a'] ['!'])[0]? = some '!' ∧
    (Vigenere.decrypt ['a', 'b'] ['a'] ['!'])[0]? = some '!' := by
  obtain h := pass_through ['a', 'b'] ['a'] ['!'] 1 0 '!' (by decide) (by decide)
  exact ⟨h.1 (by decide), h.2.1 (by decide), h.2.2.1, h.2.2.2⟩

/-- Counterexample to C6 as stated: over alphabet "ab" with shift `-3`, the
out-of-alphabet symbol "!" at position 1 of "a!" is found at position 9 of
the output "undefined!", while position 1 holds "n". -/
theorem pass_through_cex :
    (['a', '!'] : List Char)[1]? = some '!' ∧ '!' ∉ (['a', 'b'] : List Char) ∧
    (Caesar.encrypt ['a', 'b'] ['a', '!'] (-3))[1]? = some 'n' ∧
    ¬ (Caesar.encrypt ['a', 'b'] ['a', '!'] (-3))[1]? = some '!' := by
  decide

/-- C7 (confirmed): for a non-empty keyword the key-stream has exactly the
text's length and satisfies `keyStream[i] = keyword[i mod keywordLength]` at
every position (no alphabet-membership condition); for keyword "key" and any
text of length 7 it is exactly "keykeyk". -/
theorem keyStream_correct (key text : List Char) (hk : key ≠ []) :
    (Vigenere.generateFullKey key text).length = text.length ∧
    (∀ i, i < text.length →
      (Vigenere.generateFullKey key text)[i]? = key[i % key.length]?) ∧
    (key = "key".toList → text.length = 7 →
      Vigenere.generateFullKey key text = "keykeyk".toList) := by
  refine ⟨Vigenere.generateFullKey_length hk text,
    fun i hi => Vigenere.generateFullKey_getElem? hk text hi, ?_⟩
  rintro rfl h7
  rw [@Vigenere.generateFullKey_congr ("key".toList) text ("keykeyk".toList)
    (by rw [h7]; rfl)]
  decide

/-- Witness for C7 at keyword "key" and the 7-symbol text "getaway". -/
theorem keyStream_correct_witness :
    (Vigenere.generateFullKey ("key".toList) ("getaway".toList)).length =
      ("getaway".toList).length ∧
    Vigenere.generateFullKey ("key".toList) ("getaway".toList) = "keykeyk".toList := by
  obtain h := keyStream_correct ("key".toList) ("getaway".toList) (by decide)
  exact ⟨h.1, h.2.2 rfl (by decide)⟩

/-- C8 (confirmed): the shift cipher's decrypt is exactly encrypt with the
negated shift — the source defines `decrypt(ciphertext, shift)` as
`this.encrypt(ciphertext, -shift)` and has no other decryption path, so the
two sides are definitionally equal in the embedding. -/
theorem caesar_decrypt_eq_encrypt_neg (alphabet text : List Char) (s : Int) :
    Caesar.decrypt alphabet text s = Caesar.encrypt alphabet text (-s) := rfl

/-- C9 (corrected): with a zero-length alphabet no operation fails and no
division by zero occurs — every lookup returns `-1` before `mod` is reached,
so every symbol takes the pass-through path and all four operations silently
return the input text unchanged, rather than failing fast with a
configuration error (see `empty_alphabet_cex`). -/
theorem empty_alphabet_passthrough (key text : List Char) (s : Int) :
    Caesar.encrypt [] text s = text ∧ Caesar.decrypt [] text s = text ∧
    Vigenere.encrypt [] key text = text ∧ Vigenere.decrypt [] key text = text := by
  have hcaesar : ∀ (t : List Char) (sh : Int), Caesar.encrypt [] t sh = t := by
    intro t sh
    induction t with
    | nil => rfl
    | cons c rest ih =>
      have hpass : Caesar.shiftChar [] c sh = some c :=
        Caesar.shiftChar_of_not_mem [] (by simp) sh
      simp only [Caesar.encrypt, hpass, strConcatVal_some, List.singleton_append, ih]
  have hvig : ∀ (t : List Char) (d : Int), ∀ fk : List Char, t.length ≤ fk.length →
      Vigenere.mapJoin [] d t fk = t := by
    intro t d
    induction t with
    | nil => intro fk _; rfl
    | cons c rest ih =>
      intro fk hlen
      cases fk with
      | nil => exact absurd hlen (by simp)
      | cons k krest =>
        have hpass : Vigenere.shiftChar [] c k d = some c :=
          Vigenere.shiftChar_of_not_mem_left [] (by simp) k d
        simp only [Vigenere.mapJoin, hpass, joinVal_some, List.singleton_append]
        rw [ih krest (by simp only [List.length_cons] at hlen; omega)]
  exact ⟨hcaesar text s, hcaesar text (-s),
    hvig text 1 _ (Vigenere.length_le_generateFullKey key text),
    hvig text (-1) _ (Vigenere.length_le_generateFullKey key text)⟩

/-- Counterexample to C9 as stated: with an empty alphabet, encryption
silently produces output (the input text, unchanged) instead of failing. -/
theorem empty_alphabet_cex :
    Caesar.encrypt [] ("аб".toList) 3 = "аб".toList ∧
    Vigenere.encrypt [] ("key".toList) ("аб".toList) = "аб".toList := by
  decide

/-- C10 (confirmed): for every key — the empty key included — both
running-key operations on the empty text return the empty string and raise no
error: the key-stream loop runs zero iterations and never indexes the
keyword. -/
theorem vigenere_empty_text (alphabet key : List Char) :
    Vigenere.encrypt alphabet key [] = [] ∧
    Vigenere.decrypt alphabet key [] = [] ∧
    Vigenere.generateFullKey key [] = [] :=
  ⟨rfl, rfl, rfl⟩
